import Mathlib

/-!
Verification of the format-conversion core of store/file_index.py:
the three file convertors (key-value JSON, line-delimited, tabular) and the
import/export synchronization logic of FileTranslationIndex.

Strings are modelled as Lean strings (lists of characters); Python dicts are
modelled as insertion-ordered association lists with the update-in-place /
append semantics of CPython dicts.  File and database I/O are factored out:
each convertor operates on the parsed representation of its file, and the
record store is a language-indexed family of record lists.
-/

/-- Whitespace characters stripped by the strip and rstrip operations
(the ASCII whitespace set). -/
def pyIsSpace (c : Char) : Bool :=
  c = ' ' || c = '\t' || c = '\n' || c = '\r' || c = '\x0b' || c = '\x0c'

/-- Both-ends trim of a character list, as in a strip() call. -/
def pstripList (l : List Char) : List Char :=
  ((l.dropWhile pyIsSpace).reverse.dropWhile pyIsSpace).reverse

/-- Right-only trim of a character list, as in an rstrip() call. -/
def prstripList (l : List Char) : List Char :=
  (l.reverse.dropWhile pyIsSpace).reverse

/-- Both-ends trim of a string. -/
def pstrip (s : String) : String := ⟨pstripList s.data⟩

/-- Right-only trim of a string. -/
def prstrip (s : String) : String := ⟨prstripList s.data⟩

/-- Modelled from the spec: util.strip_or_none (helper module not under src)
trims the value and treats a blank result as absent. -/
def strip_or_none (s : String) : Option String :=
  let t := pstrip s
  if t = "" then none else some t

/-- A TextMap: insertion-ordered association list from original text to
optional translated text, mirroring the Python dict built by get_text_map. -/
abbrev TextMap := List (String × Option String)

/-- Whether the dict already holds the key. -/
def hasKey (m : TextMap) (k : String) : Bool := m.any (fun p => p.1 = k)

/-- CPython dict assignment: update the value in place when the key exists,
otherwise append the new binding at the end. -/
def dinsert (m : TextMap) (k : String) (v : Option String) : TextMap :=
  if hasKey m k then m.map (fun p => if p.1 = k then (k, v) else p)
  else m ++ [(k, v)]

/-- The shared normalization applied to a raw translated value: trim-or-none
followed by mapping a self-equal translation to none. -/
def normValue (k : String) (raw : String) : Option String :=
  let v := strip_or_none raw
  if v = some k then none else v

/-- A JSON value as far as MToolConvertor.get_text_map cares: a string,
null, or anything else (skipped by the isinstance check). -/
inductive JVal where
  | jstr : String → JVal
  | jnull : JVal
  | jother : JVal

deriving instance DecidableEq for JVal

namespace MToolConvertor

/-- One iteration of the loop of MToolConvertor.get_text_map over an item of
the loaded JSON object. -/
def step (m : TextMap) (kv : String × JVal) : TextMap :=
  match kv.2 with
  | JVal.jstr v => if pstrip kv.1 = "" then m else dinsert m kv.1 (normValue kv.1 v)
  | _ => m

/-- MToolConvertor.get_text_map over the items of the loaded JSON object. -/
def get_text_map (data : List (String × JVal)) : TextMap :=
  data.foldl step []

/-- Modelled from the spec: MToolConvertor.save_to writes the map as a JSON
object (None as null) and json round-trips it, so re-reading the saved file
yields these items. -/
def save_data (m : TextMap) : List (String × JVal) :=
  m.map (fun kv => (kv.1, match kv.2 with | some s => JVal.jstr s | none => JVal.jnull))

end MToolConvertor

/-- One line produced by readlines: characters accumulated up to and
including a newline terminator. -/
def splitLinesAux : List Char → List Char → List (List Char)
  | [], acc => if acc.isEmpty then [] else [acc.reverse]
  | c :: cs, acc =>
    if c = '\n' then (acc.reverse ++ ['\n']) :: splitLinesAux cs []
    else splitLinesAux cs (c :: acc)

/-- The readlines call on the content of a text file: split after each
newline, keeping the terminator (universal-newline translation has already
replaced CR and CRLF by a newline). -/
def pyReadlines (s : String) : List String :=
  (splitLinesAux s.data []).map (fun l => ⟨l⟩)

namespace XUnityConvertor

/-- One iteration of the loop of XUnityConvertor.get_text_map over a line:
lines without a separator are ignored, the line is right-trimmed, split at
the first separator, blank keys are skipped and the value normalized. -/
def step (m : TextMap) (line : String) : TextMap :=
  if line.data.contains '=' then
    let t := prstripList line.data
    let k : String := ⟨t.takeWhile (fun c => !(c = '='))⟩
    let v : String := ⟨(t.dropWhile (fun c => !(c = '='))).drop 1⟩
    if pstrip k = "" then m else dinsert m k (normValue k v)
  else m

/-- XUnityConvertor.get_text_map over the lines read from the file. -/
def get_text_map (data : List String) : TextMap :=
  data.foldl step []

/-- XUnityConvertor.get_text_map applied to a file with the given content. -/
def from_content (content : String) : TextMap :=
  get_text_map (pyReadlines content)

/-- The value escaping of XUnityConvertor.save_to: each newline and each
carriage return becomes a two-character backslash sequence. -/
def escapeChars : List Char → List Char
  | [] => []
  | c :: cs =>
    (if c = '\n' then ['\\', 'n'] else if c = '\r' then ['\\', 'r'] else [c]) ++ escapeChars cs

/-- XUnityConvertor.save_to: write one key=value line per binding; a None
value makes the unguarded replace call fail (modelled as an error). -/
def save_to : TextMap → Except Unit String
  | [] => Except.ok ""
  | (_, none) :: _ => Except.error ()
  | (k, some v) :: rest =>
    match save_to rest with
    | Except.ok out => Except.ok (k ++ "=" ++ (⟨escapeChars v.data⟩ : String) ++ "\n" ++ out)
    | Except.error e => Except.error e

end XUnityConvertor

namespace TranslatorPPConvertor

/-- One iteration of the loop of TranslatorPPConvertor.get_text_map over a
row of the first two sheet columns (a missing original is skipped, as are
blank originals; the value is normalized). -/
def step (m : TextMap) (row : Option String × String) : TextMap :=
  match row.1 with
  | none => m
  | some old => if pstrip old = "" then m else dinsert m old (normValue old row.2)

/-- TranslatorPPConvertor.get_text_map over the rows below the header. -/
def get_text_map (rows : List (Option String × String)) : TextMap :=
  rows.foldl step []

/-- Modelled from the spec: TranslatorPPConvertor.save_to places the map
pairs in the first two sheet columns (the other three stay empty). -/
def save_data (m : TextMap) : List (String × Option String) := m

/-- Modelled from the spec: re-reading the saved sheet with na-filtering off
yields the first two columns, empty cells as empty strings. -/
def read_back (saved : List (String × Option String)) : List (Option String × String) :=
  saved.map (fun kv => (some kv.1, kv.2.getD ""))

end TranslatorPPConvertor

/-- A translation block, as built by store.misc.block_of.
Modelled from the spec: one Block carries the record kind, the original
text, an empty code field and the optional translated text. -/
structure Block where
  type : String
  what : String
  code : String
  new_code : Option String

/-- A translation record, as built by store.misc.ast_of.
Modelled from the spec: one record per (language, original text) pair with
a fixed line number of zero and a single-element block list. -/
structure Ast where
  language : String
  filename : String
  linenumber : Nat
  identifier : String
  block : List Block

/-- The store.misc.block_of helper (keyword constructor). -/
def block_of (type what code : String) (new_code : Option String) : Block :=
  ⟨type, what, code, new_code⟩

/-- The store.misc.ast_of helper (keyword constructor). -/
def ast_of (language filename : String) (linenumber : Nat) (identifier : String)
    (block : List Block) : Ast :=
  ⟨language, filename, linenumber, identifier, block⟩

/-- Modelled from the spec: the record store visible to a
FileTranslationIndex, a per-language list of string records plus
per-language aggregate statistics (translated count, total count). -/
structure FIState where
  records : String → List Ast
  stats : String → Option (Nat × Nat)

/-- Modelled from the spec: drop_translations removes every stored record
of the language. -/
def drop_translations (st : FIState) (lang : String) : FIState :=
  { st with records := fun l => if l = lang then [] else st.records l }

/-- Modelled from the spec: dao.add_batch appends the batch to the
language's string table. -/
def add_batch (st : FIState) (lang : String) (batch : List Ast) : FIState :=
  { st with records := fun l => if l = lang then st.records l ++ batch else st.records l }

/-- Modelled from the spec: update_translation_stats recomputes the
aggregate counts of translated and total records for the language. -/
def update_translation_stats (st : FIState) (lang : String) : FIState :=
  { st with stats := fun l =>
      if l = lang then
        some ((st.records lang).countP (fun r => r.block.any (fun b => b.new_code.isSome)),
          (st.records lang).length)
      else st.stats l }

/-- The batch built inside FileTranslationIndex.import_translations: one
record per TextMap entry, with a single String block. -/
def string_data_of (lang path : String) (data : TextMap) : List Ast :=
  data.map (fun kv => ast_of lang path 0 kv.1 [block_of "String" kv.1 "" kv.2])

/-- FileTranslationIndex.import_translations on the TextMap extracted by
the convertor from the bound source file: on a non-empty map, drop the
language's records, insert the fresh batch and refresh statistics; on an
empty map, only report. -/
def import_translations (st : FIState) (lang path : String) (data : TextMap) : FIState :=
  if data.isEmpty then st
  else
    update_translation_stats
      (add_batch (drop_translations st lang) lang (string_data_of lang path data)) lang

/-- One iteration of the inner loop of
FileTranslationIndex.export_translations over a block. -/
def export_entry (translated_only : Bool) (m : TextMap) (b : Block) : TextMap :=
  if b.new_code ≠ none then dinsert m b.what b.new_code
  else if !translated_only then dinsert m b.what (some b.what)
  else m

/-- The map new_string_data rebuilt by
FileTranslationIndex.export_translations from the stored records. -/
def build_export_map (sd : List Ast) (translated_only : Bool) : TextMap :=
  sd.foldl (fun m v => v.block.foldl (export_entry translated_only) m) []

/-- The last index at which the character occurs, as in an rfind call. -/
def rfindIdx (cs : List Char) (c : Char) : Option Nat :=
  (cs.reverse.findIdx? (fun x => x == c)).map (fun j => cs.length - 1 - j)

/-- The os.path.splitext split (posix rules): split before the last dot
when it lies after the last slash and the base name is not all dots up to
that point. -/
def psplitext (p : String) : String × String :=
  let cs := p.data
  let sepIdx : Int := match rfindIdx cs '/' with | some i => (i : Int) | none => -1
  let dotIdx : Int := match rfindIdx cs '.' with | some i => (i : Int) | none => -1
  if sepIdx < dotIdx then
    let start := (sepIdx + 1).toNat
    let stop := dotIdx.toNat
    if ((cs.drop start).take (stop - start)).all (fun c => c == '.') then (p, "")
    else (⟨cs.take stop⟩, ⟨cs.drop stop⟩)
  else (p, "")

/-- The output path derived by FileTranslationIndex.export_translations:
the source path's stem, an underscore, the language, the extension. -/
def export_path (path lang : String) : String :=
  (psplitext path).1 ++ "_" ++ lang ++ (psplitext path).2

/-- Modelled from the spec: exists_lang holds when the language has stored
records. -/
def exists_lang (st : FIState) (lang : String) : Bool :=
  !(st.records lang).isEmpty

/-- FileTranslationIndex.export_translations: report and return (none)
when the language has no records or the rebuilt map is empty, otherwise
hand the derived path and the rebuilt map to the convertor. -/
def export_translations (st : FIState) (lang : String) (translated_only : Bool)
    (path : String) : Option (String × TextMap) :=
  if !(exists_lang st lang) then none
  else
    let m := build_export_map (st.records lang) translated_only
    if m.isEmpty then none
    else some (export_path path lang, m)

/-! ### Lemmas on the trimming primitives -/

theorem dropWhile_dropWhile (p : Char → Bool) (l : List Char) :
    List.dropWhile p (List.dropWhile p l) = List.dropWhile p l := by
  induction l with
  | nil => rfl
  | cons a t ih =>
    cases hp : p a with
    | true => simpa [List.dropWhile_cons, hp] using ih
    | false => simp [List.dropWhile_cons, hp]

theorem head_false_of_dropWhile_eq_self (p : Char → Bool) (c : Char) (t : List Char)
    (h : List.dropWhile p (c :: t) = c :: t) : p c = false := by
  cases hp : p c with
  | false => rfl
  | true =>
    exfalso
    rw [List.dropWhile_cons, if_pos hp] at h
    have hle : (List.dropWhile p t).length ≤ t.length := (List.dropWhile_sublist p).length_le
    have := congrArg List.length h
    simp at this
    omega

theorem dropWhile_eq_self_of_pstrip_eq (l : List Char) (h : pstripList l = l) :
    List.dropWhile pyIsSpace l = l := by
  have hsub : (List.dropWhile pyIsSpace l).Sublist l := List.dropWhile_sublist pyIsSpace
  have h1 : (List.dropWhile pyIsSpace (List.dropWhile pyIsSpace l).reverse).length ≤
      (List.dropWhile pyIsSpace l).length := by
    simpa using (List.dropWhile_sublist (l := (List.dropWhile pyIsSpace l).reverse) pyIsSpace).length_le
  have h2 : l.length = (List.dropWhile pyIsSpace (List.dropWhile pyIsSpace l).reverse).length := by
    conv_lhs => rw [← h]
    simp [pstripList]
  have h3 := hsub.length_le
  exact hsub.eq_of_length (by omega)

theorem dropWhile_reverse_eq_self_of_pstrip_eq (l : List Char) (h : pstripList l = l) :
    List.dropWhile pyIsSpace l.reverse = l.reverse := by
  have hfix := dropWhile_eq_self_of_pstrip_eq l h
  have h2 : (List.dropWhile pyIsSpace l.reverse).reverse = l := by
    conv_rhs => rw [← h]
    simp [pstripList, hfix]
  have := congrArg List.reverse h2
  simpa using this

theorem pstripList_left_fix (l : List Char) :
    List.dropWhile pyIsSpace (pstripList l) = pstripList l := by
  have hpre : pstripList l <+: List.dropWhile pyIsSpace l := by
    have hsuf : List.dropWhile pyIsSpace (List.dropWhile pyIsSpace l).reverse <:+
        (List.dropWhile pyIsSpace l).reverse := List.dropWhile_suffix pyIsSpace
    have := List.reverse_prefix.2 hsuf
    simpa [pstripList] using this
  cases hc : pstripList l with
  | nil => rfl
  | cons c t =>
    obtain ⟨r, hr⟩ := hpre
    rw [hc] at hr
    have hfix : List.dropWhile pyIsSpace (List.dropWhile pyIsSpace l) =
        List.dropWhile pyIsSpace l := dropWhile_dropWhile pyIsSpace l
    rw [← hr] at hfix
    have hcfalse : pyIsSpace c = false := by
      rcases List.cons_append c t r ▸ hfix with h2
      exact head_false_of_dropWhile_eq_self pyIsSpace c (t ++ r) (by simpa using h2)
    simp [List.dropWhile_cons, hcfalse]

theorem pstripList_right_fix (l : List Char) :
    List.dropWhile pyIsSpace (pstripList l).reverse = (pstripList l).reverse := by
  have : (pstripList l).reverse =
      List.dropWhile pyIsSpace (List.dropWhile pyIsSpace l).reverse := by
    simp [pstripList]
  rw [this, dropWhile_dropWhile]

theorem pstripList_idem (l : List Char) : pstripList (pstripList l) = pstripList l := by
  conv_lhs => rw [pstripList, pstripList_left_fix, pstripList_right_fix]
  simp

theorem pstrip_idem (s : String) : pstrip (pstrip s) = pstrip s := by
  unfold pstrip
  exact congrArg String.mk (pstripList_idem s.data)

theorem pstrip_data_eq_of_eq {s : String} (h : pstrip s = s) : pstripList s.data = s.data :=
  congrArg String.data h

theorem mem_pstripList {c : Char} {l : List Char} (h : c ∈ pstripList l) : c ∈ l := by
  unfold pstripList at h
  rw [List.mem_reverse] at h
  have h2 := (List.dropWhile_sublist pyIsSpace).subset h
  rw [List.mem_reverse] at h2
  exact (List.dropWhile_sublist pyIsSpace).subset h2

theorem mem_prstripList {c : Char} {l : List Char} (h : c ∈ prstripList l) : c ∈ l := by
  unfold prstripList at h
  rw [List.mem_reverse] at h
  have h2 := (List.dropWhile_sublist pyIsSpace).subset h
  rwa [List.mem_reverse] at h2

theorem prstripList_append_ws (xs : List Char) (c : Char) (h : pyIsSpace c = true) :
    prstripList (xs ++ [c]) = prstripList xs := by
  simp [prstripList, List.dropWhile_cons, h]

/-! ### Lemmas on normalization -/

theorem strip_or_none_some {s t : String} (h : strip_or_none s = some t) :
    pstrip t = t ∧ t ≠ "" := by
  unfold strip_or_none at h
  by_cases he : pstrip s = ""
  · simp [he] at h
  · simp [he] at h
    subst h
    exact ⟨pstrip_idem s, he⟩

theorem normValue_some {k raw s : String} (h : normValue k raw = some s) :
    pstrip s = s ∧ s ≠ "" ∧ s ≠ k := by
  unfold normValue at h
  by_cases he : strip_or_none raw = some k
  · simp [he] at h
  · simp [he] at h
    obtain ⟨h1, h2⟩ := strip_or_none_some h
    refine ⟨h1, h2, ?_⟩
    intro hk
    exact he (hk ▸ h)

theorem strip_or_none_of_normalized {s : String} (h1 : pstrip s = s) (h2 : s ≠ "") :
    strip_or_none s = some s := by
  unfold strip_or_none
  rw [h1, if_neg h2]

theorem normValue_of_normalized {k s : String} (h1 : pstrip s = s) (h2 : s ≠ "")
    (h3 : s ≠ k) : normValue k s = some s := by
  unfold normValue
  rw [strip_or_none_of_normalized h1 h2]
  simp [h3]

theorem normValue_empty (k : String) : normValue k "" = none := by
  have : strip_or_none "" = none := by simp [strip_or_none, pstrip, pstripList]
  simp [normValue, this]

/-! ### Lemmas on the dict model -/

/-- Every binding of a TextMap extracted by a convertor has a non-blank key
and a normalized, non-empty value different from the key. -/
def entryOK (kv : String × Option String) : Prop :=
  pstrip kv.1 ≠ "" ∧ ∀ s, kv.2 = some s → pstrip s = s ∧ s ≠ "" ∧ s ≠ kv.1

/-- All bindings of the map satisfy entryOK. -/
def entriesOK (m : TextMap) : Prop := ∀ kv ∈ m, entryOK kv

/-- The keys of the map are pairwise distinct. -/
def nodupKeys (m : TextMap) : Prop := (m.map Prod.fst).Nodup

theorem hasKey_iff {m : TextMap} {k : String} : hasKey m k = true ↔ k ∈ m.map Prod.fst := by
  simp [hasKey, List.any_eq_true, List.mem_map]

theorem hasKey_false_iff {m : TextMap} {k : String} :
    hasKey m k = false ↔ k ∉ m.map Prod.fst := by
  constructor
  · intro h hmem
    rw [← hasKey_iff] at hmem
    rw [h] at hmem
    cases hmem
  · intro h
    cases hk : hasKey m k with
    | false => rfl
    | true => exact absurd (hasKey_iff.1 hk) h

theorem mem_dinsert {m : TextMap} {k : String} {v : Option String} {kv : String × Option String}
    (h : kv ∈ dinsert m k v) : kv = (k, v) ∨ kv ∈ m := by
  unfold dinsert at h
  by_cases hk : hasKey m k
  · rw [if_pos hk] at h
    obtain ⟨p, hp, he⟩ := List.mem_map.1 h
    by_cases hpk : p.1 = k
    · rw [if_pos hpk] at he
      exact Or.inl he.symm
    · rw [if_neg hpk] at he
      exact Or.inr (he ▸ hp)
  · rw [if_neg hk] at h
    rcases List.mem_append.1 h with h2 | h2
    · exact Or.inr h2
    · exact Or.inl (List.mem_singleton.1 h2)

theorem keys_dinsert_pos {m : TextMap} {k : String} (v : Option String)
    (h : hasKey m k = true) : (dinsert m k v).map Prod.fst = m.map Prod.fst := by
  unfold dinsert
  rw [if_pos h, List.map_map]
  apply List.map_congr_left
  intro p _
  by_cases hpk : p.1 = k
  · simp [hpk]
  · simp [hpk]

theorem keys_dinsert_neg {m : TextMap} {k : String} (v : Option String)
    (h : hasKey m k = false) : (dinsert m k v).map Prod.fst = m.map Prod.fst ++ [k] := by
  unfold dinsert
  rw [if_neg (by simp [h]), List.map_append]
  rfl

theorem nodupKeys_dinsert {m : TextMap} (k : String) (v : Option String)
    (h : nodupKeys m) : nodupKeys (dinsert m k v) := by
  cases hk : hasKey m k with
  | true => rw [nodupKeys, keys_dinsert_pos v hk]; exact h
  | false =>
    rw [nodupKeys, keys_dinsert_neg v hk]
    have hknm : k ∉ m.map Prod.fst := hasKey_false_iff.1 hk
    rw [nodupKeys] at h
    simp [List.nodup_append, h, hknm]

theorem dinsert_forall {P : String × Option String → Prop} {m : TextMap} {k : String}
    {v : Option String} (h : ∀ kv ∈ m, P kv) (hkv : P (k, v)) :
    ∀ kv ∈ dinsert m k v, P kv := by
  intro kv hm
  rcases mem_dinsert hm with he | hm2
  · exact he ▸ hkv
  · exact h kv hm2

theorem dinsert_append_of_not_hasKey {m : TextMap} {k : String} (v : Option String)
    (h : hasKey m k = false) : dinsert m k v = m ++ [(k, v)] := by
  simp [dinsert, h]

theorem foldl_dinsert_rebuild :
    ∀ (m acc : TextMap), nodupKeys m → (∀ kv ∈ m, hasKey acc kv.1 = false) →
      m.foldl (fun a kv => dinsert a kv.1 kv.2) acc = acc ++ m := by
  intro m
  induction m with
  | nil => simp
  | cons kv t ih =>
    intro acc hnd hdisj
    simp only [List.foldl_cons]
    rw [dinsert_append_of_not_hasKey kv.2 (hdisj kv (List.mem_cons_self kv t))]
    have hndt : nodupKeys t := by
      rw [nodupKeys] at hnd ⊢
      simpa using hnd.of_cons
    have hdisj2 : ∀ kv2 ∈ t, hasKey (acc ++ [(kv.1, kv.2)]) kv2.1 = false := by
      intro kv2 h2
      rw [hasKey_false_iff]
      intro hmem
      rw [List.map_append, List.mem_append] at hmem
      rcases hmem with hmem | hmem
      · exact absurd hmem (hasKey_false_iff.1 (hdisj kv2 (List.mem_cons_of_mem kv h2)))
      · simp at hmem
        rw [nodupKeys, List.map_cons, List.nodup_cons] at hnd
        exact hnd.1 (hmem ▸ List.mem_map_of_mem Prod.fst h2)
    rw [ih (acc ++ [(kv.1, kv.2)]) hndt hdisj2]
    simp

theorem foldl_congr_mem {α β : Type} (l : List α) :
    ∀ (f g : β → α → β) (b : β), (∀ acc x, x ∈ l → f acc x = g acc x) →
      l.foldl f b = l.foldl g b := by
  induction l with
  | nil => intro f g b _; rfl
  | cons a t ih =>
    intro f g b h
    simp only [List.foldl_cons]
    rw [h b a (List.mem_cons_self a t)]
    exact ih f g (g b a) (fun acc x hx => h acc x (List.mem_cons_of_mem a hx))

/-! ### Invariants of the extracted TextMaps -/

theorem entryOK_insert {k raw : String} (hk : pstrip k ≠ "") :
    entryOK (k, normValue k raw) := by
  refine ⟨hk, ?_⟩
  intro s hs
  exact normValue_some hs

theorem fold_inv_generic {α : Type} (step : TextMap → α → TextMap)
    (hstep : ∀ m x, step m x = m ∨
      ∃ k raw, pstrip k ≠ "" ∧ step m x = dinsert m k (normValue k raw)) :
    ∀ (input : List α) (acc : TextMap), entriesOK acc → nodupKeys acc →
      entriesOK (input.foldl step acc) ∧ nodupKeys (input.foldl step acc) := by
  intro input
  induction input with
  | nil => intro acc h1 h2; exact ⟨h1, h2⟩
  | cons x t ih =>
    intro acc h1 h2
    simp only [List.foldl_cons]
    rcases hstep acc x with he | ⟨k, raw, hk, he⟩
    · rw [he]; exact ih acc h1 h2
    · rw [he]
      exact ih _ (dinsert_forall h1 (entryOK_insert hk)) (nodupKeys_dinsert k _ h2)

theorem mt_step_cases (m : TextMap) (kv : String × JVal) :
    MToolConvertor.step m kv = m ∨
      ∃ k raw, pstrip k ≠ "" ∧ MToolConvertor.step m kv = dinsert m k (normValue k raw) := by
  obtain ⟨k1, j⟩ := kv
  cases j with
  | jstr v =>
    by_cases hb : pstrip k1 = ""
    · exact Or.inl (by simp [MToolConvertor.step, hb])
    · exact Or.inr ⟨k1, v, hb, by simp [MToolConvertor.step, hb]⟩
  | jnull => exact Or.inl rfl
  | jother => exact Or.inl rfl

theorem xu_step_cases (m : TextMap) (line : String) :
    XUnityConvertor.step m line = m ∨
      ∃ k raw, pstrip k ≠ "" ∧ XUnityConvertor.step m line = dinsert m k (normValue k raw) := by
  unfold XUnityConvertor.step
  by_cases hc : line.data.contains '='
  · rw [if_pos hc]
    set t := prstripList line.data with ht
    set k : String := ⟨t.takeWhile (fun c => !(c = '='))⟩ with hkdef
    by_cases hb : pstrip k = ""
    · rw [if_pos hb]; exact Or.inl rfl
    · rw [if_neg hb]
      exact Or.inr ⟨k, ⟨(t.dropWhile (fun c => !(c = '='))).drop 1⟩, hb, rfl⟩
  · rw [if_neg hc]; exact Or.inl rfl

theorem tp_step_cases (m : TextMap) (row : Option String × String) :
    TranslatorPPConvertor.step m row = m ∨
      ∃ k raw, pstrip k ≠ "" ∧ TranslatorPPConvertor.step m row = dinsert m k (normValue k raw) := by
  obtain ⟨o, v2⟩ := row
  cases o with
  | none => exact Or.inl rfl
  | some old =>
    by_cases hb : pstrip old = ""
    · exact Or.inl (by simp [TranslatorPPConvertor.step, hb])
    · exact Or.inr ⟨old, v2, hb, by simp [TranslatorPPConvertor.step, hb]⟩

theorem mt_get_text_map_inv (data : List (String × JVal)) :
    entriesOK (MToolConvertor.get_text_map data) ∧
      nodupKeys (MToolConvertor.get_text_map data) :=
  fold_inv_generic MToolConvertor.step mt_step_cases data []
    (fun kv h => absurd h (List.not_mem_nil kv)) List.nodup_nil

theorem xu_get_text_map_inv (data : List String) :
    entriesOK (XUnityConvertor.get_text_map data) ∧
      nodupKeys (XUnityConvertor.get_text_map data) :=
  fold_inv_generic XUnityConvertor.step xu_step_cases data []
    (fun kv h => absurd h (List.not_mem_nil kv)) List.nodup_nil

theorem tp_get_text_map_inv (rows : List (Option String × String)) :
    entriesOK (TranslatorPPConvertor.get_text_map rows) ∧
      nodupKeys (TranslatorPPConvertor.get_text_map rows) :=
  fold_inv_generic TranslatorPPConvertor.step tp_step_cases rows []
    (fun kv h => absurd h (List.not_mem_nil kv)) List.nodup_nil

/-! ### Round-trip lemmas for the JSON and tabular variants -/

theorem mt_step_encoded (acc : TextMap) (kv : String × Option String) (hok : entryOK kv)
    (hnn : kv.2 ≠ none) :
    MToolConvertor.step acc
      (kv.1, match kv.2 with | some s => JVal.jstr s | none => JVal.jnull) =
      dinsert acc kv.1 kv.2 := by
  obtain ⟨k, v⟩ := kv
  cases v with
  | none => exact absurd rfl hnn
  | some s =>
    obtain ⟨hs1, hs2, hs3⟩ := hok.2 s rfl
    have hb : pstrip k ≠ "" := hok.1
    simp only [MToolConvertor.step]
    rw [if_neg hb, normValue_of_normalized hs1 hs2 hs3]

theorem mt_roundtrip (data : List (String × JVal))
    (hnn : ∀ kv ∈ MToolConvertor.get_text_map data, kv.2 ≠ none) :
    MToolConvertor.get_text_map (MToolConvertor.save_data (MToolConvertor.get_text_map data)) =
      MToolConvertor.get_text_map data := by
  obtain ⟨hOK, hND⟩ := mt_get_text_map_inv data
  set m := MToolConvertor.get_text_map data with hm
  conv_lhs => rw [MToolConvertor.get_text_map, MToolConvertor.save_data]
  rw [List.foldl_map]
  rw [foldl_congr_mem m _ (fun a kv => dinsert a kv.1 kv.2) []
    (fun acc kv h => mt_step_encoded acc kv (hOK kv h) (hnn kv h))]
  simpa using foldl_dinsert_rebuild m [] hND (fun kv _ => rfl)

theorem tp_step_encoded (acc : TextMap) (kv : String × Option String) (hok : entryOK kv) :
    TranslatorPPConvertor.step acc (some kv.1, kv.2.getD "") = dinsert acc kv.1 kv.2 := by
  obtain ⟨k, v⟩ := kv
  cases v with
  | none =>
    simp only [TranslatorPPConvertor.step, Option.getD]
    rw [if_neg hok.1, normValue_empty]
  | some s =>
    obtain ⟨hs1, hs2, hs3⟩ := hok.2 s rfl
    simp only [TranslatorPPConvertor.step, Option.getD]
    rw [if_neg hok.1, normValue_of_normalized hs1 hs2 hs3]

theorem tp_roundtrip (rows : List (Option String × String)) :
    TranslatorPPConvertor.get_text_map
      (TranslatorPPConvertor.read_back
        (TranslatorPPConvertor.save_data (TranslatorPPConvertor.get_text_map rows))) =
      TranslatorPPConvertor.get_text_map rows := by
  obtain ⟨hOK, hND⟩ := tp_get_text_map_inv rows
  set m := TranslatorPPConvertor.get_text_map rows with hm
  conv_lhs => rw [TranslatorPPConvertor.get_text_map, TranslatorPPConvertor.save_data,
    TranslatorPPConvertor.read_back]
  rw [List.foldl_map]
  rw [foldl_congr_mem m _ (fun a kv => dinsert a kv.1 kv.2) []
    (fun acc kv h => tp_step_encoded acc kv (hOK kv h))]
  simpa using foldl_dinsert_rebuild m [] hND (fun kv _ => rfl)

/-! ### Lemmas on readlines and the line-delimited variant -/

/-- Character-level cleanliness of a binding extracted from a real file:
the key holds no newline, carriage return or separator, and the value no
newline or carriage return. -/
def xuClean (kv : String × Option String) : Prop :=
  '\n' ∉ kv.1.data ∧ '\r' ∉ kv.1.data ∧ '=' ∉ kv.1.data ∧
    ∀ s, kv.2 = some s → '\n' ∉ s.data ∧ '\r' ∉ s.data

theorem strip_or_none_some_eq {raw s : String} (h : strip_or_none raw = some s) :
    s = pstrip raw := by
  unfold strip_or_none at h
  by_cases he : pstrip raw = ""
  · simp [he] at h
  · simp [he] at h
    exact h.symm

theorem normValue_some_eq {k raw s : String} (h : normValue k raw = some s) :
    s = pstrip raw := by
  unfold normValue at h
  by_cases he : strip_or_none raw = some k
  · simp [he] at h
  · simp [he] at h
    exact strip_or_none_some_eq h

theorem splitLinesAux_shape :
    ∀ (cs acc : List Char), '\n' ∉ acc →
      ∀ l ∈ splitLinesAux cs acc, ∃ body, '\n' ∉ body ∧ (l = body ++ ['\n'] ∨ l = body) := by
  intro cs
  induction cs with
  | nil =>
    intro acc hacc l hl
    by_cases he : acc.isEmpty
    · simp [splitLinesAux, he] at hl
    · simp [splitLinesAux, he] at hl
      refine ⟨acc.reverse, ?_, Or.inr hl⟩
      rw [List.mem_reverse]
      exact hacc
  | cons c t ih =>
    intro acc hacc l hl
    by_cases hc : c = '\n'
    · rw [show splitLinesAux (c :: t) acc =
        (acc.reverse ++ ['\n']) :: splitLinesAux t [] by simp [splitLinesAux, hc]] at hl
      rcases List.mem_cons.1 hl with he | hm
      · refine ⟨acc.reverse, ?_, Or.inl he⟩
        rw [List.mem_reverse]
        exact hacc
      · exact ih [] (List.not_mem_nil '\n') l hm
    · rw [show splitLinesAux (c :: t) acc = splitLinesAux t (c :: acc)
        by simp [splitLinesAux, hc]] at hl
      refine ih (c :: acc) ?_ l hl
      intro hmem
      rcases List.mem_cons.1 hmem with he | hm
      · exact hc he.symm
      · exact hacc hm

theorem splitLinesAux_subset :
    ∀ (cs acc : List Char), ∀ l ∈ splitLinesAux cs acc, ∀ c ∈ l, c ∈ acc ∨ c ∈ cs := by
  intro cs
  induction cs with
  | nil =>
    intro acc l hl c hc
    by_cases he : acc.isEmpty
    · simp [splitLinesAux, he] at hl
    · simp [splitLinesAux, he] at hl
      rw [hl, List.mem_reverse] at hc
      exact Or.inl hc
  | cons c0 t ih =>
    intro acc l hl c hc
    by_cases hc0 : c0 = '\n'
    · rw [show splitLinesAux (c0 :: t) acc =
        (acc.reverse ++ ['\n']) :: splitLinesAux t [] by simp [splitLinesAux, hc0]] at hl
      rcases List.mem_cons.1 hl with he | hm
      · rw [he] at hc
        rcases List.mem_append.1 hc with h2 | h2
        · exact Or.inl (List.mem_reverse.1 h2)
        · refine Or.inr ?_
          rw [List.mem_singleton.1 h2, ← hc0]
          exact List.mem_cons_self c0 t
      · rcases ih [] l hm c hc with h2 | h2
        · exact absurd h2 (List.not_mem_nil c)
        · exact Or.inr (List.mem_cons_of_mem c0 h2)
    · rw [show splitLinesAux (c0 :: t) acc = splitLinesAux t (c0 :: acc)
        by simp [splitLinesAux, hc0]] at hl
      rcases ih (c0 :: acc) l hl c hc with h2 | h2
      · rcases List.mem_cons.1 h2 with he | hm
        · exact Or.inr (he ▸ List.mem_cons_self c0 t)
        · exact Or.inl hm
      · exact Or.inr (List.mem_cons_of_mem c0 h2)

theorem takeWhile_until_eq (kl sl : List Char) (h : '=' ∉ kl) :
    (kl ++ '=' :: sl).takeWhile (fun c => !(c = '=')) = kl := by
  induction kl with
  | nil => simp [List.takeWhile_cons]
  | cons a t ih =>
    have ha : ¬(a = '=') := fun he => h (he ▸ List.mem_cons_self a t)
    have ht : '=' ∉ t := fun hm => h (List.mem_cons_of_mem a hm)
    simp only [List.cons_append, List.takeWhile_cons]
    simp [ha, ih ht]

theorem dropWhile_until_eq (kl sl : List Char) (h : '=' ∉ kl) :
    (kl ++ '=' :: sl).dropWhile (fun c => !(c = '=')) = '=' :: sl := by
  induction kl with
  | nil => simp [List.dropWhile_cons]
  | cons a t ih =>
    have ha : ¬(a = '=') := fun he => h (he ▸ List.mem_cons_self a t)
    have ht : '=' ∉ t := fun hm => h (List.mem_cons_of_mem a hm)
    simp only [List.cons_append, List.dropWhile_cons]
    simp [ha, ih ht]

theorem prstrip_line (kl sl : List Char) (hsl : sl ≠ [])
    (hfix : List.dropWhile pyIsSpace sl.reverse = sl.reverse) :
    prstripList (kl ++ '=' :: sl ++ ['\n']) = kl ++ '=' :: sl := by
  unfold prstripList
  have hrev : (kl ++ '=' :: sl ++ ['\n']).reverse = '\n' :: (sl.reverse ++ '=' :: kl.reverse) := by
    simp
  rw [hrev, List.dropWhile_cons, if_pos (by decide : pyIsSpace '\n' = true)]
  cases hsr : sl.reverse with
  | nil => exact absurd (by simpa using congrArg List.reverse hsr) hsl
  | cons a t2 =>
    rw [hsr] at hfix
    have ha : pyIsSpace a = false := head_false_of_dropWhile_eq_self pyIsSpace a t2 hfix
    rw [List.cons_append, List.dropWhile_cons, if_neg (by simp [ha])]
    rw [← List.cons_append, ← hsr]
    simp

theorem escape_noop : ∀ l : List Char, '\n' ∉ l → '\r' ∉ l →
    XUnityConvertor.escapeChars l = l := by
  intro l
  induction l with
  | nil => intro _ _; rfl
  | cons c t ih =>
    intro h1 h2
    have hc1 : ¬(c = '\n') := fun he => h1 (he ▸ List.mem_cons_self c t)
    have hc2 : ¬(c = '\r') := fun he => h2 (he ▸ List.mem_cons_self c t)
    have ht1 : '\n' ∉ t := fun hm => h1 (List.mem_cons_of_mem c hm)
    have ht2 : '\r' ∉ t := fun hm => h2 (List.mem_cons_of_mem c hm)
    simp only [XUnityConvertor.escapeChars]
    simp [hc1, hc2, ih ht1 ht2]

theorem sdata_append (a b : String) : (a ++ b).data = a.data ++ b.data := rfl

theorem sdata_mk (l : List Char) : (String.mk l).data = l := rfl

theorem xu_step_split (acc : TextMap) (line : String) (kl sl : List Char)
    (hc : line.data.contains '=' = true)
    (hsplit : prstripList line.data = kl ++ '=' :: sl)
    (hk : '=' ∉ kl) :
    XUnityConvertor.step acc line =
      if pstrip ⟨kl⟩ = "" then acc
      else dinsert acc ⟨kl⟩ (normValue ⟨kl⟩ ⟨sl⟩) := by
  simp only [XUnityConvertor.step]
  rw [if_pos hc, hsplit, takeWhile_until_eq kl sl hk, dropWhile_until_eq kl sl hk]
  rfl

theorem xu_step_line (acc : TextMap) (k s : String) (hok : entryOK (k, some s))
    (hkeq : '=' ∉ k.data) :
    XUnityConvertor.step acc ⟨k.data ++ '=' :: s.data ++ ['\n']⟩ = dinsert acc k (some s) := by
  obtain ⟨hs1, hs2, hs3⟩ := hok.2 s rfl
  have hb : pstrip k ≠ "" := hok.1
  have hsl : s.data ≠ [] := fun h => hs2 (String.ext h)
  have hfix := dropWhile_reverse_eq_self_of_pstrip_eq s.data (pstrip_data_eq_of_eq hs1)
  have hc : ((⟨k.data ++ '=' :: s.data ++ ['\n']⟩ : String).data).contains '=' = true :=
    List.elem_iff.2
      (List.mem_append.2 (Or.inl (List.mem_append.2 (Or.inr (List.mem_cons_self _ _)))))
  have hsplit : prstripList ((⟨k.data ++ '=' :: s.data ++ ['\n']⟩ : String).data) =
      k.data ++ '=' :: s.data := prstrip_line k.data s.data hsl hfix
  rw [xu_step_split acc _ k.data s.data hc hsplit hkeq]
  rw [show (⟨k.data⟩ : String) = k from rfl, show (⟨s.data⟩ : String) = s from rfl]
  rw [if_neg hb, normValue_of_normalized hs1 hs2 hs3]

theorem splitLinesAux_line (body : List Char) (hb : '\n' ∉ body) :
    ∀ (rest acc : List Char), splitLinesAux (body ++ '\n' :: rest) acc =
      (acc.reverse ++ body ++ ['\n']) :: splitLinesAux rest [] := by
  induction body with
  | nil => intro rest acc; simp [splitLinesAux]
  | cons c b ih =>
    intro rest acc
    have hc : ¬(c = '\n') := fun he => hb (he ▸ List.mem_cons_self c b)
    have hbt : '\n' ∉ b := fun hm => hb (List.mem_cons_of_mem c hm)
    rw [List.cons_append, show splitLinesAux (c :: (b ++ '\n' :: rest)) acc =
      splitLinesAux (b ++ '\n' :: rest) (c :: acc) by simp [splitLinesAux, hc]]
    rw [ih hbt rest (c :: acc)]
    simp

theorem splitLines_flat :
    ∀ (bodies : List (List Char)), (∀ b ∈ bodies, '\n' ∉ b) →
      splitLinesAux (bodies.map (fun b => b ++ ['\n'])).flatten [] =
        bodies.map (fun b => b ++ ['\n']) := by
  intro bodies
  induction bodies with
  | nil => intro _; rfl
  | cons b bs ih =>
    intro h
    have hb : '\n' ∉ b := h b (List.mem_cons_self b bs)
    have hbs : ∀ x ∈ bs, '\n' ∉ x := fun x hx => h x (List.mem_cons_of_mem b hx)
    rw [List.map_cons, List.flatten_cons,
      show (b ++ ['\n']) ++ (bs.map (fun x => x ++ ['\n'])).flatten =
        b ++ '\n' :: (bs.map (fun x => x ++ ['\n'])).flatten by simp]
    rw [splitLinesAux_line b hb _ []]
    rw [ih hbs]
    simp

theorem xu_save_clean :
    ∀ m : TextMap,
      (∀ kv ∈ m, ∀ s, kv.2 = some s → '\n' ∉ s.data ∧ '\r' ∉ s.data) →
      (∀ kv ∈ m, kv.2 ≠ none) →
      XUnityConvertor.save_to m =
        Except.ok ⟨(m.map (fun kv => kv.1.data ++ '=' :: (kv.2.getD "").data ++ ['\n'])).flatten⟩ := by
  intro m
  induction m with
  | nil => intro _ _; rfl
  | cons kv t ih =>
    intro hclean hnn
    obtain ⟨k, v⟩ := kv
    cases v with
    | none => exact absurd rfl (hnn (k, none) (List.mem_cons_self _ _))
    | some s =>
      have hs := hclean (k, some s) (List.mem_cons_self _ _) s rfl
      have hesc : XUnityConvertor.escapeChars s.data = s.data := escape_noop s.data hs.1 hs.2
      have hct : ∀ kv2 ∈ t, ∀ s2, kv2.2 = some s2 → '\n' ∉ s2.data ∧ '\r' ∉ s2.data :=
        fun kv2 h2 => hclean kv2 (List.mem_cons_of_mem _ h2)
      have hnt : ∀ kv2 ∈ t, kv2.2 ≠ none := fun kv2 h2 => hnn kv2 (List.mem_cons_of_mem _ h2)
      rw [show XUnityConvertor.save_to ((k, some s) :: t) =
        (match XUnityConvertor.save_to t with
          | Except.ok out =>
            Except.ok (k ++ "=" ++ (⟨XUnityConvertor.escapeChars s.data⟩ : String) ++ "\n" ++ out)
          | Except.error e => Except.error e) from rfl]
      rw [ih hct hnt]
      apply congrArg Except.ok
      apply String.ext
      simp only [sdata_append, sdata_mk, show ("=" : String).data = ['='] from rfl,
        show ("\n" : String).data = ['\n'] from rfl, List.map_cons, List.flatten_cons]
      rw [hesc]
      simp

theorem xu_step_clean (acc : TextMap) (line : String)
    (hline : ∃ body, '\n' ∉ body ∧ '\r' ∉ body ∧ (line.data = body ++ ['\n'] ∨ line.data = body))
    (hacc : ∀ kv ∈ acc, xuClean kv) :
    ∀ kv ∈ XUnityConvertor.step acc line, xuClean kv := by
  obtain ⟨body, hnb, hrb, hshape⟩ := hline
  have hsub : ∀ c ∈ prstripList line.data, c ∈ body := by
    intro c hcm
    rcases hshape with h | h
    · rw [h, prstripList_append_ws body '\n' (by decide)] at hcm
      exact mem_prstripList hcm
    · rw [h] at hcm
      exact mem_prstripList hcm
  by_cases hc : line.data.contains '=' = true
  · simp only [XUnityConvertor.step]
    rw [if_pos hc]
    by_cases hb :
        pstrip (⟨(prstripList line.data).takeWhile (fun c => !(c = '='))⟩ : String) = ""
    · rw [if_pos hb]; exact hacc
    · rw [if_neg hb]
      apply dinsert_forall hacc
      set kd := (prstripList line.data).takeWhile (fun c => !(c = '=')) with hkd
      set vd := ((prstripList line.data).dropWhile (fun c => !(c = '='))).drop 1 with hvd
      have hksub : ∀ c ∈ kd, c ∈ body := fun c hm =>
        hsub c ((List.takeWhile_sublist _).subset hm)
      have hvsub : ∀ c ∈ vd, c ∈ body := fun c hm =>
        hsub c ((List.dropWhile_sublist _).subset ((List.drop_sublist 1 _).subset hm))
      refine ⟨?_, ?_, ?_, ?_⟩
      · intro hm
        rw [sdata_mk] at hm
        exact hnb (hksub _ hm)
      · intro hm
        rw [sdata_mk] at hm
        exact hrb (hksub _ hm)
      · intro hm
        rw [sdata_mk] at hm
        have := List.mem_takeWhile_imp hm
        simp at this
      · intro s hs
        have hse : s = pstrip ⟨vd⟩ := normValue_some_eq hs
        have hsd : s.data = pstripList vd := by rw [hse]; rfl
        constructor
        · intro hm
          rw [hsd] at hm
          exact hnb (hvsub _ (mem_pstripList hm))
        · intro hm
          rw [hsd] at hm
          exact hrb (hvsub _ (mem_pstripList hm))
  · simp only [XUnityConvertor.step]
    rw [if_neg hc]
    exact hacc

theorem xu_fold_clean (lines : List String) :
    ∀ acc : TextMap,
      (∀ l ∈ lines, ∃ body, '\n' ∉ body ∧ '\r' ∉ body ∧
        (l.data = body ++ ['\n'] ∨ l.data = body)) →
      (∀ kv ∈ acc, xuClean kv) →
      ∀ kv ∈ lines.foldl XUnityConvertor.step acc, xuClean kv := by
  induction lines with
  | nil => intro acc _ hacc; exact hacc
  | cons l t ih =>
    intro acc hlines hacc
    simp only [List.foldl_cons]
    exact ih (XUnityConvertor.step acc l)
      (fun l2 h2 => hlines l2 (List.mem_cons_of_mem l h2))
      (xu_step_clean acc l (hlines l (List.mem_cons_self l t)) hacc)

theorem xu_from_content_clean (content : String) (hcr : '\r' ∉ content.data) :
    ∀ kv ∈ XUnityConvertor.from_content content, xuClean kv := by
  unfold XUnityConvertor.from_content XUnityConvertor.get_text_map
  apply xu_fold_clean
  · intro l hl
    unfold pyReadlines at hl
    obtain ⟨raw, hraw, hmk⟩ := List.mem_map.1 hl
    obtain ⟨body, hnb, hbody⟩ :=
      splitLinesAux_shape content.data [] (List.not_mem_nil '\n') raw hraw
    refine ⟨body, hnb, ?_, ?_⟩
    · intro hm
      apply hcr
      have hrm : '\r' ∈ raw := by
        rcases hbody with h | h
        · rw [h]; exact List.mem_append.2 (Or.inl hm)
        · rw [h]; exact hm
      rcases splitLinesAux_subset content.data [] raw hraw '\r' hrm with h2 | h2
      · exact absurd h2 (List.not_mem_nil '\r')
      · exact h2
    · rw [← hmk, sdata_mk]
      exact hbody
  · intro kv h
    exact absurd h (List.not_mem_nil kv)

/-- The file content written by XUnityConvertor.save_to on a map whose
values contain no character that needs escaping. -/
def xuOutput (m : TextMap) : String :=
  ⟨(m.map (fun kv => kv.1.data ++ '=' :: (kv.2.getD "").data ++ ['\n'])).flatten⟩

theorem xu_roundtrip (content : String) (hcr : '\r' ∉ content.data)
    (hnn : ∀ kv ∈ XUnityConvertor.from_content content, kv.2 ≠ none) :
    XUnityConvertor.save_to (XUnityConvertor.from_content content) =
      Except.ok (xuOutput (XUnityConvertor.from_content content)) ∧
    XUnityConvertor.from_content (xuOutput (XUnityConvertor.from_content content)) =
      XUnityConvertor.from_content content := by
  have hclean := xu_from_content_clean content hcr
  obtain ⟨hOK, hND⟩ := xu_get_text_map_inv (pyReadlines content)
  set m := XUnityConvertor.from_content content with hm
  have hOK2 : entriesOK m := hOK
  have hND2 : nodupKeys m := hND
  constructor
  · exact xu_save_clean m (fun kv hkv s hs => (hclean kv hkv).2.2.2 s hs) hnn
  · have hbodies : ∀ b ∈ m.map (fun kv => kv.1.data ++ '=' :: (kv.2.getD "").data),
        '\n' ∉ b := by
      intro b hb
      obtain ⟨kv, hkv, he⟩ := List.mem_map.1 hb
      obtain ⟨h1, _, _, h4⟩ := hclean kv hkv
      intro hmem
      rw [← he] at hmem
      rcases List.mem_append.1 hmem with hx | hx
      · exact h1 hx
      · rcases List.mem_cons.1 hx with hx2 | hx2
        · exact absurd hx2 (by decide)
        · cases hv : kv.2 with
          | none => rw [hv] at hx2; simp at hx2
          | some s => rw [hv] at hx2; exact (h4 s hv).1 hx2
    have hout : (xuOutput m).data =
        ((m.map (fun kv => kv.1.data ++ '=' :: (kv.2.getD "").data)).map
          (fun b => b ++ ['\n'])).flatten := by
      show (m.map (fun kv => kv.1.data ++ '=' :: (kv.2.getD "").data ++ ['\n'])).flatten = _
      rw [List.map_map]
      rfl
    have hsplit : splitLinesAux (xuOutput m).data [] =
        m.map (fun kv => kv.1.data ++ '=' :: (kv.2.getD "").data ++ ['\n']) := by
      rw [hout, splitLines_flat _ hbodies, List.map_map]
      rfl
    show XUnityConvertor.get_text_map (pyReadlines (xuOutput m)) = m
    unfold pyReadlines
    rw [hsplit, List.map_map]
    unfold XUnityConvertor.get_text_map
    rw [List.foldl_map]
    rw [foldl_congr_mem m _ (fun a kv => dinsert a kv.1 kv.2) [] ?steps]
    case steps =>
      intro acc kv hkv
      obtain ⟨s, hs⟩ := Option.ne_none_iff_exists'.1 (hnn kv hkv)
      have hokv : entryOK (kv.1, some s) := by
        have h0 := hOK2 kv hkv
        have hkveq : kv = (kv.1, some s) := by rw [← hs]
        rw [← hkveq]
        exact h0
      have hkeq : '=' ∉ kv.1.data := (hclean kv hkv).2.2.1
      show XUnityConvertor.step acc ⟨kv.1.data ++ '=' :: (kv.2.getD "").data ++ ['\n']⟩ =
        dinsert acc kv.1 kv.2
      rw [hs]
      show XUnityConvertor.step acc ⟨kv.1.data ++ '=' :: s.data ++ ['\n']⟩ =
        dinsert acc kv.1 (some s)
      exact xu_step_line acc kv.1 s hokv hkeq
    simpa using foldl_dinsert_rebuild m [] hND2 (fun kv _ => rfl)

/-! ### Lemmas on the export path -/

theorem export_entry_some (translated_only : Bool) (m : TextMap) (b : Block)
    (h : ∀ kv ∈ m, kv.2 ≠ none) :
    ∀ kv ∈ export_entry translated_only m b, kv.2 ≠ none := by
  unfold export_entry
  cases hn : b.new_code with
  | some c =>
    rw [if_pos (by simp)]
    exact dinsert_forall h (by simp)
  | none =>
    rw [if_neg (by simp [hn])]
    cases translated_only with
    | true => simpa using h
    | false =>
      simp only [Bool.not_false, if_pos]
      exact dinsert_forall h (by simp)

theorem export_blocks_some (bs : List Block) :
    ∀ (translated_only : Bool) (m : TextMap), (∀ kv ∈ m, kv.2 ≠ none) →
      ∀ kv ∈ bs.foldl (export_entry translated_only) m, kv.2 ≠ none := by
  induction bs with
  | nil => intro _ m h; exact h
  | cons b t ih =>
    intro translated_only m h
    simp only [List.foldl_cons]
    exact ih translated_only _ (export_entry_some translated_only m b h)

theorem build_export_map_some (sd : List Ast) (translated_only : Bool) :
    ∀ kv ∈ build_export_map sd translated_only, kv.2 ≠ none := by
  unfold build_export_map
  generalize hacc : ([] : TextMap) = acc
  have hbase : ∀ kv ∈ acc, kv.2 ≠ none := by
    rw [← hacc]; intro kv h; exact absurd h (List.not_mem_nil kv)
  clear hacc
  induction sd generalizing acc with
  | nil => exact hbase
  | cons r t ih =>
    simp only [List.foldl_cons]
    exact ih _ (export_blocks_some r.block translated_only acc hbase)

theorem xu_save_ok_of_no_none :
    ∀ m : TextMap, (∀ kv ∈ m, kv.2 ≠ none) →
      ∃ out, XUnityConvertor.save_to m = Except.ok out := by
  intro m
  induction m with
  | nil => intro _; exact ⟨"", rfl⟩
  | cons kv t ih =>
    intro h
    obtain ⟨k, v⟩ := kv
    cases v with
    | none => exact absurd rfl (h (k, none) (List.mem_cons_self _ _))
    | some s =>
      obtain ⟨out, hout⟩ := ih (fun kv2 h2 => h kv2 (List.mem_cons_of_mem _ h2))
      refine ⟨k ++ "=" ++ (⟨XUnityConvertor.escapeChars s.data⟩ : String) ++ "\n" ++ out, ?_⟩
      rw [show XUnityConvertor.save_to ((k, some s) :: t) =
        (match XUnityConvertor.save_to t with
          | Except.ok out =>
            Except.ok (k ++ "=" ++ (⟨XUnityConvertor.escapeChars s.data⟩ : String) ++ "\n" ++ out)
          | Except.error e => Except.error e) from rfl]
      rw [hout]

theorem export_fold_true (lang path : String) :
    ∀ (data : TextMap) (acc : TextMap),
      nodupKeys data → (∀ kv ∈ data, hasKey acc kv.1 = false) →
      (string_data_of lang path data).foldl
          (fun m v => v.block.foldl (export_entry true) m) acc =
        acc ++ data.filterMap (fun kv => kv.2.map (fun c => (kv.1, some c))) := by
  intro data
  induction data with
  | nil => intro acc _ _; simp [string_data_of]
  | cons kv t ih =>
    intro acc hnd hdisj
    have hndt : nodupKeys t := by
      rw [nodupKeys] at hnd ⊢
      simpa using hnd.of_cons
    simp only [string_data_of, List.map_cons, List.foldl_cons]
    obtain ⟨k, v⟩ := kv
    cases v with
    | none =>
      have hstep : (ast_of lang path 0 k [block_of "String" k "" none]).block.foldl
          (export_entry true) acc = acc := by
        simp [ast_of, block_of, export_entry]
      rw [hstep]
      have := ih acc hndt (fun kv2 h2 => hdisj kv2 (List.mem_cons_of_mem _ h2))
      simp only [string_data_of] at this
      rw [this]
      simp
    | some c =>
      have hstep : (ast_of lang path 0 k [block_of "String" k "" (some c)]).block.foldl
          (export_entry true) acc = acc ++ [(k, some c)] := by
        simp only [ast_of, block_of, List.foldl_cons, List.foldl_nil]
        simp only [export_entry]
        rw [if_pos (by simp)]
        exact dinsert_append_of_not_hasKey _ (hdisj (k, some c) (List.mem_cons_self _ _))
      rw [hstep]
      have hdisj2 : ∀ kv2 ∈ t, hasKey (acc ++ [(k, some c)]) kv2.1 = false := by
        intro kv2 h2
        rw [hasKey_false_iff]
        intro hmem
        rw [List.map_append, List.mem_append] at hmem
        rcases hmem with hmem | hmem
        · exact absurd hmem (hasKey_false_iff.1 (hdisj kv2 (List.mem_cons_of_mem _ h2)))
        · have hkm : kv2.1 ∈ List.map Prod.fst t := List.mem_map_of_mem Prod.fst h2
          have hke : kv2.1 = k := by simpa using hmem
          rw [hke] at hkm
          rw [nodupKeys, List.map_cons, List.nodup_cons] at hnd
          exact hnd.1 hkm
      have := ih (acc ++ [(k, some c)]) hndt hdisj2
      simp only [string_data_of] at this
      rw [this]
      simp

theorem export_fold_false (lang path : String) :
    ∀ (data : TextMap) (acc : TextMap),
      nodupKeys data → (∀ kv ∈ data, hasKey acc kv.1 = false) →
      (string_data_of lang path data).foldl
          (fun m v => v.block.foldl (export_entry false) m) acc =
        acc ++ data.map (fun kv => (kv.1, some (kv.2.getD kv.1))) := by
  intro data
  induction data with
  | nil => intro acc _ _; simp [string_data_of]
  | cons kv t ih =>
    intro acc hnd hdisj
    have hndt : nodupKeys t := by
      rw [nodupKeys] at hnd ⊢
      simpa using hnd.of_cons
    simp only [string_data_of, List.map_cons, List.foldl_cons]
    obtain ⟨k, v⟩ := kv
    have hstep : (ast_of lang path 0 k [block_of "String" k "" v]).block.foldl
        (export_entry false) acc = acc ++ [(k, some (v.getD k))] := by
      simp only [ast_of, block_of, List.foldl_cons, List.foldl_nil]
      cases v with
      | none =>
        simp only [export_entry]
        rw [if_neg (by simp)]
        simp only [Bool.not_false, if_pos, Option.getD]
        exact dinsert_append_of_not_hasKey _ (hdisj (k, none) (List.mem_cons_self _ _))
      | some c =>
        simp only [export_entry]
        rw [if_pos (by simp)]
        simp only [Option.getD]
        exact dinsert_append_of_not_hasKey _ (hdisj (k, some c) (List.mem_cons_self _ _))
    rw [hstep]
    have hdisj2 : ∀ kv2 ∈ t, hasKey (acc ++ [(k, some (v.getD k))]) kv2.1 = false := by
      intro kv2 h2
      rw [hasKey_false_iff]
      intro hmem
      rw [List.map_append, List.mem_append] at hmem
      rcases hmem with hmem | hmem
      · exact absurd hmem (hasKey_false_iff.1 (hdisj kv2 (List.mem_cons_of_mem _ h2)))
      · have hkm : kv2.1 ∈ List.map Prod.fst t := List.mem_map_of_mem Prod.fst h2
        have hke : kv2.1 = k := by simpa using hmem
        rw [hke] at hkm
        rw [nodupKeys, List.map_cons, List.nodup_cons] at hnd
        exact hnd.1 hkm
    have := ih (acc ++ [(k, some (v.getD k))]) hndt hdisj2
    simp only [string_data_of] at this
    rw [this]
    simp

/-! ### Lemmas on the derived export path -/

theorem string_append_empty (s : String) : s ++ "" = s :=
  String.ext (List.append_nil s.data)

theorem psplitext_concat (p : String) : (psplitext p).1 ++ (psplitext p).2 = p := by
  unfold psplitext
  dsimp only
  split
  · split
    · exact string_append_empty p
    · apply String.ext
      simp [sdata_append, sdata_mk, List.take_append_drop]
  · exact string_append_empty p

theorem pstrip_empty : pstrip "" = "" := rfl

/-! ### Claims -/

/-- Claim C1: on a non-empty TextMap extracted from the bound source file,
import_translations replaces the stored records of the language by exactly
the fresh batch built from the TextMap: one record per entry, so the new
record set is the batch itself and has as many records as the map has
entries (all previous records are gone). -/
theorem c1_import_full_replace (st : FIState) (lang path : String) (data : TextMap)
    (h : data ≠ []) :
    (import_translations st lang path data).records lang = string_data_of lang path data ∧
    ((import_translations st lang path data).records lang).length = data.length := by
  have hne : data.isEmpty = false := by
    cases data with
    | nil => exact absurd rfl h
    | cons a t => rfl
  have hrec : (import_translations st lang path data).records lang =
      string_data_of lang path data := by
    unfold import_translations
    rw [if_neg (by simp [hne])]
    show (add_batch (drop_translations st lang) lang (string_data_of lang path data)).records
      lang = _
    simp [add_batch, drop_translations]
  exact ⟨hrec, by rw [hrec]; simp [string_data_of]⟩

/-- Witness for C1 at a concrete one-entry TextMap and an empty store. -/
theorem c1_witness :
    (import_translations ⟨fun _ => [], fun _ => none⟩ "en" "f.json"
      [("a", some "b")]).records "en" = string_data_of "en" "f.json" [("a", some "b")] ∧
    ((import_translations ⟨fun _ => [], fun _ => none⟩ "en" "f.json"
      [("a", some "b")]).records "en").length = ([("a", some "b")] : TextMap).length :=
  c1_import_full_replace ⟨fun _ => [], fun _ => none⟩ "en" "f.json" [("a", some "b")]
    (by decide)

/-- Claim C2: when the convertor extracts an empty TextMap, import_translations
returns the store unchanged, for any language that already has records:
no drop, no insert, no statistics refresh. -/
theorem c2_import_empty_noop (st : FIState) (lang path : String) (data : TextMap)
    (hrec : st.records lang ≠ []) (hempty : data = []) :
    import_translations st lang path data = st := by
  subst hempty
  rfl

/-- Witness for C2 at a store that has one record for the language. -/
theorem c2_witness :
    import_translations
      (⟨fun _ => [ast_of "en" "f.json" 0 "a" [block_of "String" "a" "" (some "b")]],
        fun _ => none⟩ : FIState) "en" "f.json" [] =
      (⟨fun _ => [ast_of "en" "f.json" 0 "a" [block_of "String" "a" "" (some "b")]],
        fun _ => none⟩ : FIState) :=
  c2_import_empty_noop _ "en" "f.json" [] (fun h => List.noConfusion h) rfl

/-- Claim C3: in every TextMap produced by any of the three get_text_map variants,
no key is bound to a translation string equal to the key itself (a trimmed
translation equal to the original is stored as none). -/
theorem c3_no_self_translation :
    (∀ (data : List (String × JVal)) (kv : String × Option String),
      kv ∈ MToolConvertor.get_text_map data → kv.2 ≠ some kv.1) ∧
    (∀ (lines : List String) (kv : String × Option String),
      kv ∈ XUnityConvertor.get_text_map lines → kv.2 ≠ some kv.1) ∧
    (∀ (rows : List (Option String × String)) (kv : String × Option String),
      kv ∈ TranslatorPPConvertor.get_text_map rows → kv.2 ≠ some kv.1) := by
  refine ⟨?_, ?_, ?_⟩
  · intro data kv h hc
    obtain ⟨_, _, hne⟩ := ((mt_get_text_map_inv data).1 kv h).2 kv.1 hc
    exact hne rfl
  · intro lines kv h hc
    obtain ⟨_, _, hne⟩ := ((xu_get_text_map_inv lines).1 kv h).2 kv.1 hc
    exact hne rfl
  · intro rows kv h hc
    obtain ⟨_, _, hne⟩ := ((tp_get_text_map_inv rows).1 kv h).2 kv.1 hc
    exact hne rfl

/-- Witness for C3 at a concrete JSON item list. -/
theorem c3_witness :
    (("a", (some "b" : Option String)) ∈ MToolConvertor.get_text_map [("a", JVal.jstr "b")]) ∧
    (("a", (some "b" : Option String)) : String × Option String).2 ≠
      some (("a", (some "b" : Option String)) : String × Option String).1 :=
  ⟨by decide, c3_no_self_translation.1 [("a", JVal.jstr "b")] ("a", some "b") (by decide)⟩

/-- Counterexample to C4 as stated: a TextMap with a null value (extracted
from a self-equal JSON pair) does not survive the JSON round-trip; the
null-valued entry is dropped on re-extraction because null is not a string. -/
theorem c4_counterexample :
    MToolConvertor.get_text_map [("skip", JVal.jstr "skip")] = [("skip", none)] ∧
    MToolConvertor.get_text_map
      (MToolConvertor.save_data (MToolConvertor.get_text_map [("skip", JVal.jstr "skip")])) =
      [] ∧
    ([] : TextMap) ≠ [("skip", (none : Option String))] := by
  refine ⟨by decide, by decide, by decide⟩

/-- Claim C4 (amended): save-then-re-extract reproduces the extracted TextMap
whenever the map holds no null translation (JSON and line-delimited
variants; for the line-delimited variant the file content has no carriage
return, as guaranteed by universal-newline reading); the tabular variant
round-trips unconditionally, nulls included. -/
theorem c4_roundtrip_amended :
    (∀ data : List (String × JVal),
      (∀ kv ∈ MToolConvertor.get_text_map data, kv.2 ≠ none) →
      MToolConvertor.get_text_map
        (MToolConvertor.save_data (MToolConvertor.get_text_map data)) =
        MToolConvertor.get_text_map data) ∧
    (∀ content : String, '\r' ∉ content.data →
      (∀ kv ∈ XUnityConvertor.from_content content, kv.2 ≠ none) →
      ∃ out, XUnityConvertor.save_to (XUnityConvertor.from_content content) = Except.ok out ∧
        XUnityConvertor.from_content out = XUnityConvertor.from_content content) ∧
    (∀ rows : List (Option String × String),
      TranslatorPPConvertor.get_text_map
        (TranslatorPPConvertor.read_back
          (TranslatorPPConvertor.save_data (TranslatorPPConvertor.get_text_map rows))) =
        TranslatorPPConvertor.get_text_map rows) :=
  ⟨mt_roundtrip,
    fun content hcr hnn =>
      ⟨xuOutput (XUnityConvertor.from_content content), (xu_roundtrip content hcr hnn).1,
        (xu_roundtrip content hcr hnn).2⟩,
    tp_roundtrip⟩

/-- Witness for the amended C4 at concrete null-free inputs. -/
theorem c4_witness :
    (MToolConvertor.get_text_map
      (MToolConvertor.save_data (MToolConvertor.get_text_map [("a", JVal.jstr "b")])) =
      MToolConvertor.get_text_map [("a", JVal.jstr "b")]) ∧
    (∃ out, XUnityConvertor.save_to (XUnityConvertor.from_content "a=b\n") = Except.ok out ∧
      XUnityConvertor.from_content out = XUnityConvertor.from_content "a=b\n") ∧
    (TranslatorPPConvertor.get_text_map
      (TranslatorPPConvertor.read_back
        (TranslatorPPConvertor.save_data
          (TranslatorPPConvertor.get_text_map [(some "a", "b")]))) =
      TranslatorPPConvertor.get_text_map [(some "a", "b")]) :=
  ⟨c4_roundtrip_amended.1 [("a", JVal.jstr "b")] (by decide),
    c4_roundtrip_amended.2.1 "a=b\n" (by decide) (by decide),
    c4_roundtrip_amended.2.2 [(some "a", "b")]⟩

/-- Claim C5: on the record sets that import_translations stores (one single-block
String record per TextMap entry, keys pairwise distinct), the map rebuilt by
export_translations holds, with translated_only, exactly the (original,
translation) pairs of the records with a non-null translation, and without
translated_only one pair per record, falling back to the original text. -/
theorem c5_export_filter (lang path : String) (data : TextMap)
    (hnd : nodupKeys data) :
    build_export_map (string_data_of lang path data) true =
      data.filterMap (fun kv => kv.2.map (fun c => (kv.1, some c))) ∧
    build_export_map (string_data_of lang path data) false =
      data.map (fun kv => (kv.1, some (kv.2.getD kv.1))) := by
  constructor
  · have := export_fold_true lang path data [] hnd (fun kv _ => rfl)
    unfold build_export_map
    simpa using this
  · have := export_fold_false lang path data [] hnd (fun kv _ => rfl)
    unfold build_export_map
    simpa using this

/-- Witness for C5 at a two-entry TextMap with one untranslated entry. -/
theorem c5_witness :
    build_export_map (string_data_of "en" "f.json" [("a", some "b"), ("c", none)]) true =
      ([("a", some "b"), ("c", none)] : TextMap).filterMap
        (fun kv => kv.2.map (fun c => (kv.1, some c))) ∧
    build_export_map (string_data_of "en" "f.json" [("a", some "b"), ("c", none)]) false =
      ([("a", some "b"), ("c", none)] : TextMap).map
        (fun kv => (kv.1, some (kv.2.getD kv.1))) :=
  c5_export_filter "en" "f.json" [("a", some "b"), ("c", none)]
    (by unfold nodupKeys; decide)

/-- Claim C6: for a non-blank language the export path is the source path's stem,
an underscore, the language and the source extension, and it always differs
from the source path, so the export never overwrites the source file. -/
theorem c6_export_path_safe (path lang : String) (h : pstrip lang ≠ "") :
    export_path path lang =
      (psplitext path).1 ++ "_" ++ lang ++ (psplitext path).2 ∧
    export_path path lang ≠ path := by
  refine ⟨rfl, ?_⟩
  intro he
  have hcat := psplitext_concat path
  have hlang : lang.data ≠ [] := by
    intro h0
    apply h
    rw [String.ext h0]
    rfl
  have hcomb : (psplitext path).1 ++ "_" ++ lang ++ (psplitext path).2 =
      (psplitext path).1 ++ (psplitext path).2 := he.trans hcat.symm
  have hdl := congrArg (fun s : String => s.data.length) hcomb
  simp only [sdata_append, List.length_append,
    show ("_" : String).data = ['_'] from rfl] at hdl
  have hpos : 0 < lang.data.length := List.length_pos.2 hlang
  simp at hdl
  omega

/-- Witness for C6 at a concrete path and language. -/
theorem c6_witness :
    export_path "a.json" "en" =
      (psplitext "a.json").1 ++ "_" ++ "en" ++ (psplitext "a.json").2 ∧
    export_path "a.json" "en" ≠ "a.json" :=
  c6_export_path_safe "a.json" "en" (by decide)

/-- Claim C7: export_translations writes nothing and reports (returns none) both
when the language has no stored records and when the rebuilt map is empty;
the stored state is never touched by export. -/
theorem c7_export_empty_silent (st : FIState) (lang : String) (translated_only : Bool)
    (path : String) :
    (st.records lang = [] → export_translations st lang translated_only path = none) ∧
    (build_export_map (st.records lang) translated_only = [] →
      export_translations st lang translated_only path = none) := by
  constructor
  · intro h
    unfold export_translations
    rw [if_pos (by simp [exists_lang, h])]
  · intro h
    unfold export_translations
    by_cases hr : (st.records lang).isEmpty
    · rw [if_pos (by simp [exists_lang, hr])]
    · rw [if_neg (by simp [exists_lang, hr])]
      simp [h]

/-- Witness for C7 at an empty store. -/
theorem c7_witness :
    export_translations (⟨fun _ => [], fun _ => none⟩ : FIState) "en" true "f.txt" = none :=
  (c7_export_empty_silent ⟨fun _ => [], fun _ => none⟩ "en" true "f.txt").1 rfl

/-- Counterexample to C8 as stated: the key-value JSON variant keeps a key
with leading whitespace verbatim, so a retained key need not equal its own
trimmed form. -/
theorem c8_counterexample :
    (" a", (some "b" : Option String)) ∈ MToolConvertor.get_text_map [(" a", JVal.jstr "b")] ∧
    (" a" : String) ≠ pstrip " a" := by
  refine ⟨by decide, by decide⟩

/-- Claim C8 (amended): every key retained by any get_text_map variant is
non-blank (its trimmed form is non-empty), so blank or whitespace-only
keys never appear; keys are kept verbatim, not trimmed. -/
theorem c8_keys_nonblank :
    (∀ (data : List (String × JVal)) (kv : String × Option String),
      kv ∈ MToolConvertor.get_text_map data → pstrip kv.1 ≠ "") ∧
    (∀ (lines : List String) (kv : String × Option String),
      kv ∈ XUnityConvertor.get_text_map lines → pstrip kv.1 ≠ "") ∧
    (∀ (rows : List (Option String × String)) (kv : String × Option String),
      kv ∈ TranslatorPPConvertor.get_text_map rows → pstrip kv.1 ≠ "") := by
  refine ⟨?_, ?_, ?_⟩
  · intro data kv h
    exact ((mt_get_text_map_inv data).1 kv h).1
  · intro lines kv h
    exact ((xu_get_text_map_inv lines).1 kv h).1
  · intro rows kv h
    exact ((tp_get_text_map_inv rows).1 kv h).1

/-- Witness for the amended C8 at a concrete item with an untrimmed key. -/
theorem c8_witness :
    ((" a", (some "b" : Option String)) ∈
      MToolConvertor.get_text_map [(" a", JVal.jstr "b")]) ∧
    pstrip ((" a", (some "b" : Option String)) : String × Option String).1 ≠ "" :=
  ⟨by decide, c8_keys_nonblank.1 [(" a", JVal.jstr "b")] (" a", some "b") (by decide)⟩

/-- Claim C9: a line holding a separator and a literal newline in its value part
extracts to that value with the literal newline kept, and saving that
binding writes the line with the newline escaped to a backslash-n pair. -/
theorem c9_newline_escape :
    XUnityConvertor.get_text_map ["old=new\nline"] = [("old", some "new\nline")] ∧
    XUnityConvertor.save_to [("old", some "new\nline")] = Except.ok "old=new\\nline\n" := by
  refine ⟨by decide, rfl⟩

/-- Claim C10: every value of the map that export_translations rebuilds is a
non-null string (the record's translation or the original text), so the
line-delimited save never hits its unguarded string operations on null
when fed by export_translations. -/
theorem c10_export_values_non_null (sd : List Ast) (translated_only : Bool) :
    (∀ kv ∈ build_export_map sd translated_only, kv.2 ≠ none) ∧
    ∃ out, XUnityConvertor.save_to (build_export_map sd translated_only) = Except.ok out :=
  ⟨build_export_map_some sd translated_only,
    xu_save_ok_of_no_none _ (build_export_map_some sd translated_only)⟩

/-- Witness for C10 at a concrete record set. -/
theorem c10_witness :
    (("a", (some "b" : Option String)) ∈
      build_export_map [ast_of "en" "f" 0 "a" [block_of "String" "a" "" (some "b")]] true) ∧
    (("a", (some "b" : Option String)) : String × Option String).2 ≠ none :=
  ⟨by decide,
    (c10_export_values_non_null [ast_of "en" "f" 0 "a" [block_of "String" "a" "" (some "b")]]
      true).1 ("a", some "b") (by decide)⟩
